import Mathlib

set_option maxHeartbeats 1000000
set_option maxRecDepth 100000

/- Verification development for the soda-pop compiler backend
   (`src/ast/mod.rs`): a register allocator with stack discipline, a
   deduplicating constant pool, and expression/statement lowering into a
   linear instruction sequence for a register-based virtual machine.

   Modelling conventions:
   * `Nat` is the VM register-address type, `u8` in the source.  It is
     embedded as `Nat`; arithmetic that the source performs on `u8`
     values with `+`/`-` is modelled with an explicit bound check
     (Rust debug-mode checked arithmetic: overflow aborts compilation,
     modelled as `Option.none`), while Rust `as u8` / `as i16` casts,
     which always wrap, are modelled with explicit `% 256` / `% 65536`.
   * Every panic path (`assert!`, `assert_eq!`, indexing a missing
     `HashMap` key, `unimplemented!`, checked-arithmetic overflow) is
     modelled as `Option.none`.
   * The `HashMap<Name, Nat>` name table is modelled as an association
     list with HashMap semantics: `insert` overwrites the entry of an
     existing key in place, otherwise adds a new entry; `len` is the
     number of entries.  `Name` (an opaque `usize` id) is modelled as
     `Nat`. -/

/-- Modelled from the spec: the runtime value type `Val` lives in the
external `bytecode` crate and is opaque here except for equality
(used only for constant-pool deduplication); integers suffice for
every claim, so it is embedded as `Int`. -/
abbrev Val : Type := Int

inductive Unop where
  | Negate
  | Not
deriving DecidableEq, Repr

inductive Binop where
  | Add | Sub | Mul | Div | Rem
  | And | Orr | Xor
  | Gt | Lt | Geq | Leq | Eq | Neq
deriving DecidableEq, Repr

/-- Modelled from the spec: the target instruction set lives in the
external `bytecode` crate; only the constructor shapes used by the
lowering in `src/ast/mod.rs` are given (register operands, a
constant-pool index for `Const`, and `i16` relative jump offsets
embedded as `Int`). -/
inductive Instr where
  | Const : Nat → Nat → Instr
  | Add : Nat → Nat → Nat → Instr
  | Sub : Nat → Nat → Nat → Instr
  | Mul : Nat → Nat → Nat → Instr
  | Div : Nat → Nat → Nat → Instr
  | Rem : Nat → Nat → Nat → Instr
  | And : Nat → Nat → Nat → Instr
  | Orr : Nat → Nat → Nat → Instr
  | Xor : Nat → Nat → Nat → Instr
  | Gt : Nat → Nat → Nat → Instr
  | Lt : Nat → Nat → Nat → Instr
  | Geq : Nat → Nat → Nat → Instr
  | Leq : Nat → Nat → Nat → Instr
  | Eq : Nat → Nat → Nat → Instr
  | Neq : Nat → Nat → Nat → Instr
  | MkTup : Nat → Nat → Nat → Instr
  | Copy : Nat → Nat → Instr
  | CondJump : Nat → Int → Int → Instr
  | Jump : Int → Instr
deriving DecidableEq, Repr

/-- The operator-selection `match` inside the `Binop` arm of
`compile_expr`. -/
def binopInstr : Binop → Nat → Nat → Nat → Instr
  | .Add => Instr.Add
  | .Sub => Instr.Sub
  | .Mul => Instr.Mul
  | .Div => Instr.Div
  | .Rem => Instr.Rem
  | .And => Instr.And
  | .Orr => Instr.Orr
  | .Xor => Instr.Xor
  | .Gt => Instr.Gt
  | .Lt => Instr.Lt
  | .Geq => Instr.Geq
  | .Leq => Instr.Leq
  | .Eq => Instr.Eq
  | .Neq => Instr.Neq

/-- `Expr<N>` from the source, instantiated at the resolved-name type
(`Name` wraps a `usize` id, embedded as `Nat`). -/
inductive Expr where
  | Lit : Val → Expr
  | Var : Nat → Expr
  | Unop : Unop → Expr → Expr
  | Binop : Binop → Expr → Expr → Expr
  | Call : Expr → List Expr → Expr
  | Index : Expr → Expr → Expr
  | Mktup : List Expr → Expr

/-- `Stmt<N>` from the source, instantiated at the resolved-name type. -/
inductive Stmt where
  | Declare : Nat → Stmt
  | RawExpr : Expr → Stmt
  | Assign : Nat → Expr → Stmt
  | If : Expr → List Stmt → List Stmt → Stmt
  | While : Expr → List Stmt → Stmt
  | Continue : Stmt
  | Break : Stmt
  | Return : Expr → Stmt
  | Defn : List Nat → List Stmt → Stmt

/-- `FunctionCtx` from the source: name table, constant pool, allocator
cursor (`free_reg`) and high-water mark (`max_reg`). -/
structure FunctionCtx where
  vars : List (Nat × Nat)
  consts : List Val
  free_reg : Nat
  max_reg : Nat
deriving DecidableEq, Repr

/-- `FunctionCtx::new`. -/
def FunctionCtx.new : FunctionCtx := ⟨[], [], 0, 0⟩

/-- `HashMap` lookup (`self.vars[name]`); `none` models the panic on a
missing key. -/
def lookupVar : List (Nat × Nat) → Nat → Option Nat
  | [], _ => none
  | p :: rest, n => if p.1 = n then some p.2 else lookupVar rest n

/-- `HashMap::insert`: overwrite the entry of an existing key in place,
otherwise add a new entry. -/
def insertVar : List (Nat × Nat) → Nat → Nat → List (Nat × Nat)
  | [], n, a => [(n, a)]
  | p :: rest, n, a => if p.1 = n then (n, a) :: rest else p :: insertVar rest n a

/-- `FunctionCtx::push_tmp`: hand out the cursor register, advance the
cursor, update the high-water mark.  The `u8` increment is checked
(debug mode), so the cursor can never pass 255. -/
def push_tmp (ctx : FunctionCtx) : Option (Nat × FunctionCtx) :=
  if ctx.free_reg + 1 ≤ 255 then
    some (ctx.free_reg,
      { ctx with
          free_reg := ctx.free_reg + 1,
          max_reg := if ctx.free_reg + 1 > ctx.max_reg then ctx.free_reg + 1 else ctx.max_reg })
  else none

/-- `FunctionCtx::pop_tmp`: a no-op when `addr` indexes below
`vars.len()`; otherwise the `assert_eq!(free_reg, addr + 1)` (with the
checked `u8` increment of `addr`) either lowers the cursor onto `addr`
or aborts. -/
def pop_tmp (ctx : FunctionCtx) (addr : Nat) : Option FunctionCtx :=
  if addr < ctx.vars.length then some ctx
  else if 255 ≤ addr then none
  else if ctx.free_reg = addr + 1 then some { ctx with free_reg := addr }
  else none

/-- The linear scan inside `get_const`: index of the first pool entry
equal to `val`. -/
def constScan : List Val → Val → Option Nat
  | [], _ => none
  | k :: rest, v => if k = v then some 0 else (constScan rest v).map (· + 1)

/-- `FunctionCtx::get_const`: return the index of the first equal pool
entry, else append the value and return the new last index.  Both
returned indices pass through an `as u8` cast, which always wraps,
hence the explicit `% 256`. -/
def get_const (ctx : FunctionCtx) (v : Val) : Nat × FunctionCtx :=
  match constScan ctx.consts v with
  | some i => (i % 256, ctx)
  | none =>
      (((ctx.consts ++ [v]).length - 1) % 256, { ctx with consts := ctx.consts ++ [v] })

/-- `expr.len() as i16` wrapped into the signed 16-bit range. -/
def i16cast (n : Nat) : Int :=
  if n % 65536 < 32768 then (n % 65536 : Nat) else (n % 65536 : Nat) - 65536

/-- Checked `i16` addition (debug mode): abort on overflow. -/
def i16add (x y : Int) : Option Int :=
  if -32768 ≤ x + y ∧ x + y ≤ 32767 then some (x + y) else none

/-- The `end_addr` computation of the `Mktup` arm:
`(start_addr + parts.len() as u8 - 1) as u8`, with the wrapping
`as u8` cast of the length and checked (debug-mode) `u8` addition and
subtraction. -/
def mktupEnd (start : Nat) (n : Nat) : Option Nat :=
  if start + n % 256 ≤ 255 then
    if 1 ≤ start + n % 256 then some (start + n % 256 - 1) else none
  else none

/-- The release loop of the `Mktup` arm: `pop_tmp` each address in the
order of the given list (the source iterates the collected part
addresses in reverse). -/
def pop_list (ctx : FunctionCtx) : List Nat → Option FunctionCtx
  | [] => some ctx
  | a :: rest =>
      match pop_tmp ctx a with
      | none => none
      | some ctx1 => pop_list ctx1 rest

mutual

/-- `FunctionCtx::compile_expr`: lower an expression, returning the
result register and the emitted instructions.  `Unop`, `Call` and
`Index` are `unimplemented!` in the source. -/
def compile_expr (ctx : FunctionCtx) (e : Expr) : Option (Nat × List Instr × FunctionCtx) :=
  match e with
  | .Lit v =>
      match push_tmp ctx with
      | none => none
      | some (reg, ctx1) =>
          let p := get_const ctx1 v
          some (reg, [Instr.Const reg p.1], p.2)
  | .Var n =>
      match lookupVar ctx.vars n with
      | none => none
      | some a => some (a, [], ctx)
  | .Unop _ _ => none
  | .Binop op l r =>
      match push_tmp ctx with
      | none => none
      | some (reg, ctx1) =>
          match compile_expr ctx1 l with
          | none => none
          | some (left_dest, left_code, ctx2) =>
              match compile_expr ctx2 r with
              | none => none
              | some (right_dest, right_code, ctx3) =>
                  let instr := binopInstr op reg left_dest right_dest
                  match pop_tmp ctx3 right_dest with
                  | none => none
                  | some ctx4 =>
                      match pop_tmp ctx4 left_dest with
                      | none => none
                      | some ctx5 =>
                          some (reg, left_code ++ right_code ++ [instr], ctx5)
  | .Call _ _ => none
  | .Index _ _ => none
  | .Mktup parts =>
      match push_tmp ctx with
      | none => none
      | some (reg, ctx1) =>
          match compile_parts ctx1 parts with
          | none => none
          | some (part_addrs, code, ctx2) =>
              match part_addrs with
              | [] => none
              | start :: _ =>
                  match mktupEnd start parts.length with
                  | none => none
                  | some end_addr =>
                      match pop_list ctx2 part_addrs.reverse with
                      | none => none
                      | some ctx3 =>
                          some (reg, code ++ [Instr.MkTup reg start end_addr], ctx3)

/-- The element loop of the `Mktup` arm: lower each element left to
right, collecting the element result registers and concatenating the
emitted code. -/
def compile_parts (ctx : FunctionCtx) (l : List Expr) : Option (List Nat × List Instr × FunctionCtx) :=
  match l with
  | [] => some ([], [], ctx)
  | p :: rest =>
      match compile_expr ctx p with
      | none => none
      | some (a, pcode, ctx1) =>
          match compile_parts ctx1 rest with
          | none => none
          | some (as_, rcode, ctx2) =>
              some (a :: as_, pcode ++ rcode, ctx2)

end

mutual

/-- `FunctionCtx::compile_stmt`.  `While`, `Continue`, `Break`,
`Return` and `Defn` are `unimplemented!` in the source. -/
def compile_stmt (ctx : FunctionCtx) (s : Stmt) : Option (List Instr × FunctionCtx) :=
  match s with
  | .Declare n =>
      match push_tmp ctx with
      | none => none
      | some (reg, ctx1) =>
          some ([], { ctx1 with vars := insertVar ctx1.vars n reg })
  | .RawExpr e =>
      match compile_expr ctx e with
      | none => none
      | some (reg, code, ctx1) =>
          match pop_tmp ctx1 reg with
          | none => none
          | some ctx2 => some (code, ctx2)
  | .Assign n e =>
      match lookupVar ctx.vars n with
      | none => none
      | some dest =>
          match compile_expr ctx e with
          | none => none
          | some (reg, code, ctx1) =>
              match pop_tmp ctx1 reg with
              | none => none
              | some ctx2 => some (code ++ [Instr.Copy dest reg], ctx2)
  | .If cond tblk fblk =>
      match compile_expr ctx cond with
      | none => none
      | some (cond_dest, ccode, ctx1) =>
          match pop_tmp ctx1 cond_dest with
          | none => none
          | some ctx2 =>
              match compile ctx2 tblk with
              | none => none
              | some (tcode, ctx3) =>
                  match compile ctx3 fblk with
                  | none => none
                  | some (fcode, ctx4) =>
                      match i16add (i16cast tcode.length) 2 with
                      | none => none
                      | some toff =>
                          match i16add (i16cast fcode.length) 1 with
                          | none => none
                          | some foff =>
                              some (ccode ++ [Instr.CondJump cond_dest 2 1, Instr.Jump toff]
                                      ++ tcode ++ [Instr.Jump foff] ++ fcode, ctx4)
  | .While _ _ => none
  | .Continue => none
  | .Break => none
  | .Return _ => none
  | .Defn _ _ => none

/-- `FunctionCtx::compile`: lower a block statement by statement,
concatenating the emitted code. -/
def compile (ctx : FunctionCtx) (blk : List Stmt) : Option (List Instr × FunctionCtx) :=
  match blk with
  | [] => some ([], ctx)
  | s :: rest =>
      match compile_stmt ctx s with
      | none => none
      | some (code, ctx1) =>
          match compile ctx1 rest with
          | none => none
          | some (codes, ctx2) => some (code ++ codes, ctx2)

end

/-- Number of registers a successful expression lowering leaves
allocated: a bare variable reference allocates nothing, every other
variant reserves exactly its result register. -/
def exprDelta : Expr → Nat
  | .Var _ => 0
  | _ => 1

/-- Sum of `exprDelta` over the elements of a tuple expression. -/
def partsDelta : List Expr → Nat
  | [] => 0
  | p :: rest => exprDelta p + partsDelta rest

/-- Constant-pool evolution invariant: the old pool is an initial
segment of the new one (every existing entry keeps its value and its
index), and pairwise distinctness of the entries is preserved. -/
def PoolExt (c c' : FunctionCtx) : Prop :=
  (∃ t, c'.consts = c.consts ++ t) ∧ (c.consts.Nodup → c'.consts.Nodup)

/-- The allocator invariant of a reachable context: declared variables
occupy the lowest registers — every home register lies below
`vars.len()`, and the cursor lies at or above the permanent zone. -/
def GoodCtx (ctx : FunctionCtx) : Prop :=
  (∀ p ∈ ctx.vars, p.2 < ctx.vars.length) ∧ ctx.vars.length ≤ ctx.free_reg

instance (ctx : FunctionCtx) : Decidable (GoodCtx ctx) :=
  inferInstanceAs (Decidable ((∀ p ∈ ctx.vars, p.2 < ctx.vars.length) ∧ ctx.vars.length ≤ ctx.free_reg))

/-- `addr` is the home register of some declared variable. -/
def isHome (ctx : FunctionCtx) (addr : Nat) : Prop :=
  ∃ p ∈ ctx.vars, p.2 = addr

instance (ctx : FunctionCtx) (addr : Nat) : Decidable (isHome ctx addr) :=
  inferInstanceAs (Decidable (∃ p ∈ ctx.vars, p.2 = addr))

/-- Induction motive for `compile_expr`: a successful lowering extends
the pool, leaves the name table untouched and — in a context whose
declared variables occupy the lowest registers — moves the cursor up by
exactly `exprDelta` and returns either a variable's home register
(below `vars.len()`) or the register reserved at the pre-call cursor. -/
abbrev ExprP (ctx : FunctionCtx) (e : Expr) : Prop :=
  ∀ r code ctx', compile_expr ctx e = some (r, code, ctx') →
    PoolExt ctx ctx' ∧ ctx'.vars = ctx.vars ∧
    (GoodCtx ctx →
      ctx'.free_reg = ctx.free_reg + exprDelta e ∧
      ((exprDelta e = 0 ∧ r < ctx.vars.length) ∨
       (exprDelta e = 1 ∧ r = ctx.free_reg ∧ ctx.free_reg ≤ 254)))

/-- Induction motive for `compile_parts`: additionally, releasing the
collected element registers in reverse order succeeds and restores the
cursor to its pre-loop value. -/
abbrev PartsP (ctx : FunctionCtx) (l : List Expr) : Prop :=
  ∀ addrs code ctx1, compile_parts ctx l = some (addrs, code, ctx1) →
    PoolExt ctx ctx1 ∧ ctx1.vars = ctx.vars ∧ addrs.length = l.length ∧
    (GoodCtx ctx →
      ctx1.free_reg = ctx.free_reg + partsDelta l ∧
      pop_list ctx1 addrs.reverse = some { ctx1 with free_reg := ctx.free_reg })

/-- Induction motive for `compile_stmt`, covering the constant-pool
invariant: a successful statement lowering only extends the pool. -/
abbrev StmtP (ctx : FunctionCtx) (s : Stmt) : Prop :=
  ∀ code ctx', compile_stmt ctx s = some (code, ctx') → PoolExt ctx ctx'

/-- Induction motive for `compile` (block lowering): the constant-pool
invariant for whole blocks. -/
abbrev BlockP (ctx : FunctionCtx) (blk : List Stmt) : Prop :=
  ∀ code ctx', compile ctx blk = some (code, ctx') → PoolExt ctx ctx'

/-- The instruction layout produced by the `If` arm of `compile_stmt`:
condition code, the conditional jump, a jump to the false block, the
true block, a jump past the false block, the false block. -/
def ifSkeleton (ccode : List Instr) (cd : Nat) (tcode fcode : List Instr) : List Instr :=
  ccode ++ [Instr.CondJump cd 2 1, Instr.Jump ((tcode.length : Int) + 2)]
    ++ tcode ++ [Instr.Jump ((fcode.length : Int) + 1)] ++ fcode

/-! ### Basic facts about the allocator, the name table and the pool -/

theorem push_tmp_some {ctx : FunctionCtx} {reg : Nat} {ctx1 : FunctionCtx}
    (h : push_tmp ctx = some (reg, ctx1)) :
    reg = ctx.free_reg ∧ ctx1.vars = ctx.vars ∧ ctx1.consts = ctx.consts ∧
    ctx1.free_reg = ctx.free_reg + 1 ∧ ctx.free_reg ≤ 254 := by
  by_cases hc : ctx.free_reg + 1 ≤ 255
  · unfold push_tmp at h
    rw [if_pos hc] at h
    simp only [Option.some.injEq, Prod.mk.injEq] at h
    obtain ⟨h1, h2⟩ := h
    subst h1
    subst h2
    exact ⟨rfl, rfl, rfl, rfl, by omega⟩
  · unfold push_tmp at h
    rw [if_neg hc] at h
    exact absurd h (by simp)

theorem pop_tmp_noop {ctx : FunctionCtx} {addr : Nat} (h : addr < ctx.vars.length) :
    pop_tmp ctx addr = some ctx := by
  unfold pop_tmp
  rw [if_pos h]

theorem pop_tmp_pop {ctx : FunctionCtx} {addr : Nat}
    (h1 : ctx.vars.length ≤ addr) (h2 : addr ≤ 254) (h3 : ctx.free_reg = addr + 1) :
    pop_tmp ctx addr = some { ctx with free_reg := addr } := by
  unfold pop_tmp
  rw [if_neg (show ¬ addr < ctx.vars.length by omega),
      if_neg (show ¬ 255 ≤ addr by omega), if_pos h3]

theorem pop_tmp_some {ctx : FunctionCtx} {addr : Nat} {ctx' : FunctionCtx}
    (h : pop_tmp ctx addr = some ctx') :
    ctx'.vars = ctx.vars ∧ ctx'.consts = ctx.consts ∧ ctx'.max_reg = ctx.max_reg ∧
    ((addr < ctx.vars.length ∧ ctx'.free_reg = ctx.free_reg) ∨
     (ctx.vars.length ≤ addr ∧ addr ≤ 254 ∧ ctx.free_reg = addr + 1 ∧ ctx'.free_reg = addr)) := by
  by_cases h1 : addr < ctx.vars.length
  · rw [pop_tmp_noop h1] at h
    obtain rfl := Option.some.inj h
    exact ⟨rfl, rfl, rfl, Or.inl ⟨h1, rfl⟩⟩
  · by_cases h2 : 255 ≤ addr
    · unfold pop_tmp at h
      rw [if_neg h1, if_pos h2] at h
      exact absurd h (by simp)
    · by_cases h3 : ctx.free_reg = addr + 1
      · unfold pop_tmp at h
        rw [if_neg h1, if_neg h2, if_pos h3] at h
        obtain rfl := Option.some.inj h
        exact ⟨rfl, rfl, rfl, Or.inr ⟨by omega, by omega, h3, rfl⟩⟩
      · unfold pop_tmp at h
        rw [if_neg h1, if_neg h2, if_neg h3] at h
        exact absurd h (by simp)

theorem constScan_none {l : List Val} {v : Val} :
    constScan l v = none ↔ v ∉ l := by
  induction l with
  | nil => simp [constScan]
  | cons k rest ih =>
      by_cases hk : k = v
      · subst hk
        simp [constScan]
      · simp [constScan, hk, ih, Ne.symm hk]

theorem constScan_some {l : List Val} {v : Val} {i : Nat}
    (h : constScan l v = some i) :
    l[i]? = some v ∧ ∀ j, j < i → l[j]? ≠ some v := by
  induction l generalizing i with
  | nil => simp [constScan] at h
  | cons k rest ih =>
      by_cases hk : k = v
      · subst hk
        simp [constScan] at h
        subst h
        simp
      · simp only [constScan, if_neg hk, Option.map_eq_some'] at h
        obtain ⟨i0, hscan, rfl⟩ := h
        obtain ⟨hv1, hv2⟩ := ih hscan
        refine ⟨by simpa using hv1, ?_⟩
        intro j hj
        cases j with
        | zero => simpa using hk
        | succ j0 => simpa using hv2 j0 (by omega)

theorem get_const_state (ctx : FunctionCtx) (v : Val) :
    (get_const ctx v).2.vars = ctx.vars ∧ (get_const ctx v).2.free_reg = ctx.free_reg ∧
    (get_const ctx v).2.max_reg = ctx.max_reg := by
  unfold get_const
  split <;> simp

theorem PoolExt.refl (c : FunctionCtx) : PoolExt c c :=
  ⟨⟨[], by simp⟩, id⟩

theorem PoolExt.trans {a b c : FunctionCtx} (h1 : PoolExt a b) (h2 : PoolExt b c) : PoolExt a c := by
  obtain ⟨⟨t1, ht1⟩, hn1⟩ := h1
  obtain ⟨⟨t2, ht2⟩, hn2⟩ := h2
  exact ⟨⟨t1 ++ t2, by rw [ht2, ht1, List.append_assoc]⟩, fun h => hn2 (hn1 h)⟩

theorem PoolExt.of_consts_eq {a b : FunctionCtx} (h : b.consts = a.consts) : PoolExt a b :=
  ⟨⟨[], by simp [h]⟩, by rw [h]; exact id⟩

theorem get_const_pool (ctx : FunctionCtx) (v : Val) : PoolExt ctx (get_const ctx v).2 := by
  unfold get_const
  cases hscan : constScan ctx.consts v with
  | some i => exact PoolExt.refl ctx
  | none =>
      have hv : v ∉ ctx.consts := constScan_none.mp hscan
      refine ⟨⟨[v], rfl⟩, fun hnd => ?_⟩
      simp [List.nodup_append, hnd, hv]

theorem lookupVar_mem {vs : List (Nat × Nat)} {n : Nat} {a : Nat}
    (h : lookupVar vs n = some a) : (n, a) ∈ vs := by
  induction vs with
  | nil => simp [lookupVar] at h
  | cons p rest ih =>
      unfold lookupVar at h
      split at h
      · next hp =>
        simp only [Option.some.injEq] at h
        have hpa : (n, a) = p := by
          rw [← hp, ← h]
        rw [hpa]
        exact List.mem_cons_self p rest
      · exact List.mem_cons_of_mem _ (ih h)

theorem pop_list_state {l : List Nat} {ctx ctx' : FunctionCtx}
    (h : pop_list ctx l = some ctx') :
    ctx'.vars = ctx.vars ∧ ctx'.consts = ctx.consts ∧ ctx'.max_reg = ctx.max_reg := by
  induction l generalizing ctx with
  | nil =>
      obtain rfl : ctx = ctx' := by simpa [pop_list] using h
      exact ⟨rfl, rfl, rfl⟩
  | cons a rest ih =>
      unfold pop_list at h
      cases hp : pop_tmp ctx a with
      | none => rw [hp] at h; exact absurd h (by simp)
      | some ctx1 =>
          rw [hp] at h
          obtain ⟨v1, c1, m1⟩ := ih h
          obtain ⟨v2, c2, m2, _⟩ := pop_tmp_some hp
          exact ⟨v1.trans v2, c1.trans c2, m1.trans m2⟩

theorem pop_list_append (ctx : FunctionCtx) (l1 l2 : List Nat) :
    pop_list ctx (l1 ++ l2) =
      match pop_list ctx l1 with
      | none => none
      | some c => pop_list c l2 := by
  induction l1 generalizing ctx with
  | nil => simp [pop_list]
  | cons a rest ih =>
      cases hp : pop_tmp ctx a with
      | none => simp [pop_list, List.cons_append, hp]
      | some ctx1 =>
          simp only [pop_list, List.cons_append, hp]
          exact ih ctx1

theorem GoodCtx.mono {ctx ctx' : FunctionCtx} (h : GoodCtx ctx) (hv : ctx'.vars = ctx.vars)
    (hf : ctx.free_reg ≤ ctx'.free_reg) : GoodCtx ctx' := by
  obtain ⟨h1, h2⟩ := h
  constructor
  · rw [hv]
    exact h1
  · rw [hv]
    omega

theorem parts_nil_aux : ∀ ctx : FunctionCtx, PartsP ctx [] := by
  intro ctx ADDRS CODE CTX h
  simp only [compile_parts, Option.some.injEq, Prod.mk.injEq] at h
  obtain ⟨rfl, rfl, rfl⟩ := h
  refine ⟨PoolExt.refl ctx, rfl, rfl, ?_⟩
  intro hG
  constructor
  · show ctx.free_reg = ctx.free_reg + partsDelta []
    simp [partsDelta]
  · simp [pop_list]

theorem parts_cons_aux {ctx ctxp : FunctionCtx} {p : Expr} {rest : List Expr}
    {a : Nat} {pcode : List Instr}
    (hp : compile_expr ctx p = some (a, pcode, ctxp))
    (IHe : ExprP ctx p) (IHr2 : PartsP ctxp rest) : PartsP ctx (p :: rest) := by
  intro ADDRS CODE CTX h
  cases hrest : compile_parts ctxp rest with
  | none => simp [compile_parts, hp, hrest] at h
  | some w =>
    obtain ⟨addrs2, rcode, ctx2⟩ := w
    obtain ⟨hPe, hVe, hGe⟩ := IHe a pcode ctxp hp
    obtain ⟨hPr, hVr, hLr, hGr⟩ := IHr2 addrs2 rcode ctx2 hrest
    simp only [compile_parts, hp, hrest, Option.some.injEq, Prod.mk.injEq] at h
    obtain ⟨rfl, rfl, rfl⟩ := h
    refine ⟨hPe.trans hPr, by rw [hVr, hVe], by simp [hLr], ?_⟩
    intro hG
    have hGlen : ctx.vars.length ≤ ctx.free_reg := hG.2
    obtain ⟨hfp, hdp⟩ := hGe hG
    have hGp2 : GoodCtx ctxp := GoodCtx.mono hG hVe (by omega)
    obtain ⟨hfr, hplr⟩ := hGr hGp2
    constructor
    · show ctx2.free_reg = ctx.free_reg + (exprDelta p + partsDelta rest)
      omega
    · rw [List.reverse_cons, pop_list_append, hplr]
      show pop_list { ctx2 with free_reg := ctxp.free_reg } [a] =
        some { ctx2 with free_reg := ctx.free_reg }
      have hv2 : ctx2.vars = ctx.vars := by rw [hVr, hVe]
      rcases hdp with ⟨hδ, hlt⟩ | ⟨hδ, ha, hle⟩
      · have hnoop : pop_tmp { ctx2 with free_reg := ctxp.free_reg } a =
            some { ctx2 with free_reg := ctxp.free_reg } := by
          refine pop_tmp_noop ?_
          show a < ctx2.vars.length
          rw [hv2]
          exact hlt
        simp only [pop_list, hnoop, Option.some.injEq]
        have : ctxp.free_reg = ctx.free_reg := by omega
        rw [this]
      · have hpop : pop_tmp { ctx2 with free_reg := ctxp.free_reg } a =
            some { ctx2 with free_reg := a } := by
          have h1 : ({ ctx2 with free_reg := ctxp.free_reg } : FunctionCtx).vars.length ≤ a := by
            show ctx2.vars.length ≤ a
            rw [hv2]
            omega
          exact pop_tmp_pop h1 (by omega) (by show ctxp.free_reg = a + 1; omega)
        simp only [pop_list, hpop, Option.some.injEq]
        rw [ha]

/-- Master inductive lemma for expression lowering: a successful
`compile_expr` extends the pool, never touches the name table and — in
a context whose declared variables occupy the lowest registers — moves
the cursor up by exactly `exprDelta` and returns either a home register
or the register reserved at the pre-call cursor. -/
theorem compile_expr_master : ∀ ctx e, ExprP ctx e := by
  refine compile_expr.induct ExprP PartsP ?_ ?_ ?_ ?_ ?_ ?_ ?_ ?_ ?_ ?_ ?_ ?_ ?_ ?_ ?_ ?_ ?_ ?_ ?_ ?_ ?_ ?_ ?_
  -- Lit, push_tmp fails
  case refine_1 =>
    intro ctx v hpush r code ctx' h
    simp [compile_expr, hpush] at h
  -- Lit, success
  case refine_2 =>
    intro ctx v reg ctx1 hpush r code ctx' h
    obtain ⟨hreg, hv1, hc1, hf1, hle1⟩ := push_tmp_some hpush
    simp only [compile_expr, hpush, Option.some.injEq, Prod.mk.injEq] at h
    obtain ⟨rfl, rfl, rfl⟩ := h
    obtain ⟨gv, gf, gm⟩ := get_const_state ctx1 v
    refine ⟨(PoolExt.of_consts_eq hc1).trans (get_const_pool ctx1 v), by rw [gv, hv1], ?_⟩
    intro hG
    constructor
    · show (get_const ctx1 v).2.free_reg = ctx.free_reg + 1
      rw [gf, hf1]
    · exact Or.inr ⟨rfl, hreg, hle1⟩
  -- Var, lookup fails
  case refine_3 =>
    intro ctx n hlook r code ctx' h
    simp [compile_expr, hlook] at h
  -- Var, success
  case refine_4 =>
    intro ctx n a hlook r code ctx' h
    simp only [compile_expr, hlook, Option.some.injEq, Prod.mk.injEq] at h
    obtain ⟨rfl, rfl, rfl⟩ := h
    refine ⟨PoolExt.refl ctx, rfl, ?_⟩
    intro hG
    constructor
    · show ctx.free_reg = ctx.free_reg + 0
      omega
    · exact Or.inl ⟨rfl, hG.1 _ (lookupVar_mem hlook)⟩
  -- Unop: unimplemented
  case refine_5 =>
    intro ctx op arg r code ctx' h
    simp [compile_expr] at h
  -- Binop, push_tmp fails
  case refine_6 =>
    intro ctx op l r hpush R C CTX h
    simp [compile_expr, hpush] at h
  -- Binop, left operand fails
  case refine_7 =>
    intro ctx op l r reg ctx1 hpush hl IHl R C CTX h
    simp [compile_expr, hpush, hl] at h
  -- Binop, right operand fails
  case refine_8 =>
    intro ctx op l r reg ctx1 hpush ld lc ctx2 hl hr IHl IHr R C CTX h
    simp [compile_expr, hpush, hl, hr] at h
  -- Binop, pop of the right operand fails
  case refine_9 =>
    intro ctx op l r reg ctx1 hpush ld lc ctx2 hl rd rc ctx3 hr hpr IHl IHr R C CTX h
    simp [compile_expr, hpush, hl, hr, hpr] at h
  -- Binop, pop of the left operand fails
  case refine_10 =>
    intro ctx op l r reg ctx1 hpush ld lc ctx2 hl rd rc ctx3 hr ctx4 hpr hpl IHl IHr R C CTX h
    simp [compile_expr, hpush, hl, hr, hpr, hpl] at h
  -- Binop, success
  case refine_11 =>
    intro ctx op l r reg ctx1 hpush ld lc ctx2 hl rd rc ctx3 hr ctx4 hpr ctx5 hpl IHl IHr R C CTX h
    obtain ⟨hreg, hv1, hc1, hf1, hle1⟩ := push_tmp_some hpush
    obtain ⟨hPl, hVl, hGl⟩ := IHl ld lc ctx2 hl
    obtain ⟨hPr, hVr, hGr⟩ := IHr rd rc ctx3 hr
    obtain ⟨hv4, hc4, hm4, hd4⟩ := pop_tmp_some hpr
    obtain ⟨hv5, hc5, hm5, hd5⟩ := pop_tmp_some hpl
    simp only [compile_expr, hpush, hl, hr, hpr, hpl, Option.some.injEq, Prod.mk.injEq] at h
    obtain ⟨rfl, rfl, rfl⟩ := h
    have e2 : ctx2.vars = ctx.vars := by rw [hVl, hv1]
    have e3 : ctx3.vars = ctx.vars := by rw [hVr, e2]
    refine ⟨((((PoolExt.of_consts_eq hc1).trans hPl).trans hPr).trans
        (PoolExt.of_consts_eq hc4)).trans (PoolExt.of_consts_eq hc5),
      by rw [hv5, hv4, e3], ?_⟩
    intro hG
    have hlen : ctx.vars.length ≤ ctx.free_reg := hG.2
    have hG1 : GoodCtx ctx1 := GoodCtx.mono hG hv1 (by omega)
    obtain ⟨hfl, hdl⟩ := hGl hG1
    have hG2 : GoodCtx ctx2 := GoodCtx.mono hG1 hVl (by omega)
    obtain ⟨hfr, hdr⟩ := hGr hG2
    rw [hv1] at hdl
    rw [e2] at hdr
    rw [e3] at hd4
    rw [hv4, e3] at hd5
    constructor
    · show ctx5.free_reg = ctx.free_reg + 1
      rcases hdl with ⟨hδl, hldlt⟩ | ⟨hδl, hlda, hldle⟩ <;>
        rcases hdr with ⟨hδr, hrdlt⟩ | ⟨hδr, hrda, hrdle⟩ <;>
        rcases hd4 with ⟨hp4, hf4⟩ | ⟨hp4, hp4b, hp4c, hf4⟩ <;>
        rcases hd5 with ⟨hp5, hf5⟩ | ⟨hp5, hp5b, hp5c, hf5⟩ <;>
        omega
    · exact Or.inr ⟨rfl, hreg, hle1⟩
  -- Call: unimplemented
  case refine_12 =>
    intro ctx f args r code ctx' h
    simp [compile_expr] at h
  -- Index: unimplemented
  case refine_13 =>
    intro ctx t i r code ctx' h
    simp [compile_expr] at h
  -- Mktup, push_tmp fails
  case refine_14 =>
    intro ctx parts hpush R C CTX h
    simp [compile_expr, hpush] at h
  -- Mktup, element loop fails
  case refine_15 =>
    intro ctx parts reg ctx1 hpush hparts IHp R C CTX h
    simp [compile_expr, hpush, hparts] at h
  -- Mktup, no elements: the start-address assertion fails
  case refine_16 =>
    intro ctx parts reg ctx1 hpush code ctx2 hparts IHp R C CTX h
    simp [compile_expr, hpush, hparts] at h
  -- Mktup, end-address arithmetic aborts
  case refine_17 =>
    intro ctx parts reg ctx1 hpush code ctx2 a rest hend hparts IHp R C CTX h
    simp [compile_expr, hpush, hparts, hend] at h
  -- Mktup, the release loop aborts
  case refine_18 =>
    intro ctx parts reg ctx1 hpush code ctx2 a rest ea hend hparts hpops IHp R C CTX h
    rw [List.reverse_cons] at hpops
    simp [compile_expr, hpush, hparts, hend, hpops] at h
  -- Mktup, success
  case refine_19 =>
    intro ctx parts reg ctx1 hpush code ctx2 a rest ea hend ctx3 hparts hpops IHp R C CTX h
    obtain ⟨hreg, hv1, hc1, hf1, hle1⟩ := push_tmp_some hpush
    obtain ⟨hPp, hVp, hLp, hGp⟩ := IHp (a :: rest) code ctx2 hparts
    obtain ⟨hv3, hc3, hm3⟩ := pop_list_state hpops
    simp only [compile_expr, hpush, hparts, hend, hpops, Option.some.injEq, Prod.mk.injEq] at h
    obtain ⟨rfl, rfl, rfl⟩ := h
    refine ⟨((PoolExt.of_consts_eq hc1).trans hPp).trans (PoolExt.of_consts_eq hc3),
      by rw [hv3, hVp, hv1], ?_⟩
    intro hG
    have hG1 : GoodCtx ctx1 := GoodCtx.mono hG hv1 (by omega)
    obtain ⟨hf2, hpl⟩ := hGp hG1
    rw [hpops] at hpl
    obtain hctx3 := Option.some.inj hpl
    constructor
    · show ctx3.free_reg = ctx.free_reg + 1
      rw [hctx3]
      show ctx1.free_reg = ctx.free_reg + 1
      exact hf1
    · exact Or.inr ⟨rfl, hreg, hle1⟩
  -- parts: empty list
  case refine_20 =>
    exact parts_nil_aux
  -- parts: head element fails
  case refine_21 =>
    intro ctx p rest hp IHe ADDRS CODE CTX h
    simp [compile_parts, hp] at h
  -- parts: tail loop fails
  case refine_22 =>
    intro ctx p rest a pcode ctxp hp hrest IHe IHr2
    exact parts_cons_aux hp IHe IHr2
  -- parts: success
  case refine_23 =>
    intro ctx p rest a pcode ctxp hp addrs2 rcode ctx2 hrest IHe IHr2
    exact parts_cons_aux hp IHe IHr2

/-- Master lemma for the element loop of `Mktup`. -/
theorem compile_parts_master : ∀ ctx l, PartsP ctx l := by
  intro ctx l
  induction l generalizing ctx with
  | nil => exact parts_nil_aux ctx
  | cons p rest ih =>
      intro ADDRS CODE CTX h
      cases hp : compile_expr ctx p with
      | none => simp [compile_parts, hp] at h
      | some v =>
          obtain ⟨a, pcode, ctxp⟩ := v
          exact parts_cons_aux hp (compile_expr_master ctx p) (ih ctxp) ADDRS CODE CTX h

theorem block_nil_aux : ∀ ctx : FunctionCtx, BlockP ctx [] := by
  intro ctx CODE CTX h
  simp only [compile, Option.some.injEq, Prod.mk.injEq] at h
  obtain ⟨rfl, rfl⟩ := h
  exact PoolExt.refl ctx

theorem block_cons_aux {ctx ctx1 : FunctionCtx} {s : Stmt} {rest : List Stmt}
    {scode : List Instr}
    (hs : compile_stmt ctx s = some (scode, ctx1))
    (IHs : StmtP ctx s) (IHrest : BlockP ctx1 rest) : BlockP ctx (s :: rest) := by
  intro CODE CTX h
  cases hrest : compile ctx1 rest with
  | none => simp [compile, hs, hrest] at h
  | some w =>
      obtain ⟨rcode, ctx2⟩ := w
      simp only [compile, hs, hrest, Option.some.injEq, Prod.mk.injEq] at h
      obtain ⟨rfl, rfl⟩ := h
      exact (IHs scode ctx1 hs).trans (IHrest rcode ctx2 hrest)

/-- Master inductive lemma for statement lowering: a successful
`compile_stmt` only extends the constant pool. -/
theorem compile_stmt_master : ∀ ctx s, StmtP ctx s := by
  refine compile_stmt.induct StmtP BlockP ?_ ?_ ?_ ?_ ?_ ?_ ?_ ?_ ?_ ?_ ?_ ?_ ?_ ?_ ?_ ?_ ?_ ?_ ?_ ?_ ?_ ?_ ?_ ?_ ?_
  -- Declare, push_tmp fails
  case refine_1 =>
    intro ctx n hpush CODE CTX h
    simp [compile_stmt, hpush] at h
  -- Declare, success
  case refine_2 =>
    intro ctx n reg ctx1 hpush CODE CTX h
    obtain ⟨hreg, hv1, hc1, hf1, hle1⟩ := push_tmp_some hpush
    simp only [compile_stmt, hpush, Option.some.injEq, Prod.mk.injEq] at h
    obtain ⟨rfl, rfl⟩ := h
    exact PoolExt.of_consts_eq hc1
  -- RawExpr, expression fails
  case refine_3 =>
    intro ctx e he CODE CTX h
    simp [compile_stmt, he] at h
  -- RawExpr, release fails
  case refine_4 =>
    intro ctx e rd rc ctx3 he hpop CODE CTX h
    simp [compile_stmt, he, hpop] at h
  -- RawExpr, success
  case refine_5 =>
    intro ctx e rd rc ctx3 he ctx1 hpop CODE CTX h
    simp only [compile_stmt, he, hpop, Option.some.injEq, Prod.mk.injEq] at h
    obtain ⟨rfl, rfl⟩ := h
    exact ((compile_expr_master ctx e) rd rc ctx3 he).1.trans
      (PoolExt.of_consts_eq (pop_tmp_some hpop).2.1)
  -- Assign, lookup fails
  case refine_6 =>
    intro ctx n e hlook CODE CTX h
    simp [compile_stmt, hlook] at h
  -- Assign, expression fails
  case refine_7 =>
    intro ctx n e a hlook he CODE CTX h
    simp [compile_stmt, hlook, he] at h
  -- Assign, release fails
  case refine_8 =>
    intro ctx n e a hlook rd rc ctx3 he hpop CODE CTX h
    simp [compile_stmt, hlook, he, hpop] at h
  -- Assign, success
  case refine_9 =>
    intro ctx n e a hlook rd rc ctx3 he ctx1 hpop CODE CTX h
    simp only [compile_stmt, hlook, he, hpop, Option.some.injEq, Prod.mk.injEq] at h
    obtain ⟨rfl, rfl⟩ := h
    exact ((compile_expr_master ctx e) rd rc ctx3 he).1.trans
      (PoolExt.of_consts_eq (pop_tmp_some hpop).2.1)
  -- If, condition fails
  case refine_10 =>
    intro ctx cond tblk fblk hc CODE CTX h
    simp [compile_stmt, hc] at h
  -- If, release of the condition register fails
  case refine_11 =>
    intro ctx cond tblk fblk cd ccode ctx3 hc hpop CODE CTX h
    simp [compile_stmt, hc, hpop] at h
  -- If, true block fails
  case refine_12 =>
    intro ctx cond tblk fblk cd ccode ctx3 hc ctx1 hpop ht IHt CODE CTX h
    simp [compile_stmt, hc, hpop, ht] at h
  -- If, false block fails
  case refine_13 =>
    intro ctx cond tblk fblk cd ccode ctx3 hc ctx1 hpop tcode ctx4 ht hf IHt IHf CODE CTX h
    simp [compile_stmt, hc, hpop, ht, hf] at h
  -- If, true-offset arithmetic aborts
  case refine_14 =>
    intro ctx cond tblk fblk cd ccode ctx3 hc ctx1 hpop tcode ctx4 ht fcode ctx5 hf htoff IHt IHf CODE CTX h
    simp [compile_stmt, hc, hpop, ht, hf, htoff] at h
  -- If, false-offset arithmetic aborts
  case refine_15 =>
    intro ctx cond tblk fblk cd ccode ctx3 hc ctx1 hpop tcode ctx4 ht fcode ctx5 hf toff htoff hfoff IHt IHf CODE CTX h
    simp [compile_stmt, hc, hpop, ht, hf, htoff, hfoff] at h
  -- If, success
  case refine_16 =>
    intro ctx cond tblk fblk cd ccode ctx3 hc ctx1 hpop tcode ctx4 ht fcode ctx5 hf toff htoff foff hfoff IHt IHf CODE CTX h
    simp only [compile_stmt, hc, hpop, ht, hf, htoff, hfoff, Option.some.injEq,
      Prod.mk.injEq] at h
    obtain ⟨rfl, rfl⟩ := h
    exact ((((compile_expr_master ctx cond) cd ccode ctx3 hc).1.trans
      (PoolExt.of_consts_eq (pop_tmp_some hpop).2.1)).trans
        (IHt tcode ctx4 ht)).trans (IHf fcode ctx5 hf)
  -- While: unimplemented
  case refine_17 =>
    intro ctx cond blk CODE CTX h
    simp [compile_stmt] at h
  -- Continue: unimplemented
  case refine_18 =>
    intro ctx CODE CTX h
    simp [compile_stmt] at h
  -- Break: unimplemented
  case refine_19 =>
    intro ctx CODE CTX h
    simp [compile_stmt] at h
  -- Return: unimplemented
  case refine_20 =>
    intro ctx e CODE CTX h
    simp [compile_stmt] at h
  -- Defn: unimplemented
  case refine_21 =>
    intro ctx params body CODE CTX h
    simp [compile_stmt] at h
  -- block: empty
  case refine_22 =>
    exact block_nil_aux
  -- block: head fails
  case refine_23 =>
    intro ctx s rest hs IHs CODE CTX h
    simp [compile, hs] at h
  -- block: tail fails
  case refine_24 =>
    intro ctx s rest scode ctx1 hs hrest IHs IHrest
    exact block_cons_aux hs IHs IHrest
  -- block: success
  case refine_25 =>
    intro ctx s rest scode ctx1 hs rcode ctx2 hrest IHs IHrest
    exact block_cons_aux hs IHs IHrest

/-- Master lemma for block lowering: a successful `compile` only
extends the constant pool. -/
theorem compile_block_master : ∀ ctx blk, BlockP ctx blk := by
  intro ctx blk
  induction blk generalizing ctx with
  | nil => exact block_nil_aux ctx
  | cons s rest ih =>
      intro CODE CTX h
      cases hs : compile_stmt ctx s with
      | none => simp [compile, hs] at h
      | some v =>
          obtain ⟨scode, ctx1⟩ := v
          exact block_cons_aux hs (compile_stmt_master ctx s) (ih ctx1) CODE CTX h

/-! ### Claim theorems -/

/-- C10: `compile_expr` on a zero-element tuple construction
`Mktup([])` always aborts (in the model: returns `none`) in every
context — the loop records no start address, so the
`start_addr.is_some()` assertion fails (and at a full cursor the
initial `push_tmp` aborts first); it never returns an instruction
sequence. -/
theorem mktup_empty_aborts : ∀ ctx : FunctionCtx, compile_expr ctx (Expr.Mktup []) = none := by
  intro ctx
  cases hpush : push_tmp ctx with
  | none => simp [compile_expr, hpush]
  | some v =>
      obtain ⟨reg, ctx1⟩ := v
      simp [compile_expr, hpush, compile_parts]

/-- C4: from a fresh context, `Declare(x)` then `Assign(x, 2 + 3)`
produces, in order, a load of constant `2` into fresh register 2, a
load of constant `3` into register 3, an add into register 1 (reserved
before either load), and a copy into `x`'s home register 0; the final
high-water mark is 4 and the constant pool is exactly `[2, 3]`. -/
theorem declare_assign_scenario :
    compile FunctionCtx.new [Stmt.Declare 0, Stmt.Assign 0 (Expr.Binop Binop.Add (Expr.Lit 2) (Expr.Lit 3))] =
      some ([Instr.Const 2 0, Instr.Const 3 1, Instr.Add 1 2 3, Instr.Copy 0 1],
        ⟨[(0, 0)], [(2 : Int), (3 : Int)], 1, 4⟩) := by
  decide

/-- C2 is false as stated: lowering a bare variable reference leaves
the allocator cursor unchanged instead of raising it by one.  In the
context reached by `Declare(0)` from a fresh context (cursor 1), the
variable reference `Var 0` compiles successfully and the cursor stays
at 1, not 1 + 1. -/
theorem var_cursor_counterexample :
    compile_expr ⟨[(0, 0)], [], 1, 1⟩ (Expr.Var 0) = some (0, [], ⟨[(0, 0)], [], 1, 1⟩) ∧
    (⟨[(0, 0)], [], 1, 1⟩ : FunctionCtx).free_reg ≠ 1 + 1 := by
  constructor
  · decide
  · decide

/-- C2 (amended): in every context whose declared variables occupy the
lowest registers, a successful `compile_expr` moves the allocator
cursor up by exactly one — the reserved result register — with no net
leak or double release of temporaries, except for a bare variable
reference, which allocates nothing and leaves the cursor unchanged
(`exprDelta` is 0 on `Var` and 1 on every other variant). -/
theorem compile_expr_cursor_delta (ctx : FunctionCtx) (e : Expr)
    (r : Nat) (code : List Instr) (ctx' : FunctionCtx)
    (hG : GoodCtx ctx)
    (h : compile_expr ctx e = some (r, code, ctx')) :
    ctx'.free_reg = ctx.free_reg + exprDelta e ∧ ctx'.vars = ctx.vars ∧
    ∀ n, e = Expr.Var n → ctx'.free_reg = ctx.free_reg := by
  obtain ⟨hP, hV, hGc⟩ := compile_expr_master ctx e r code ctx' h
  refine ⟨(hGc hG).1, hV, ?_⟩
  intro n he
  subst he
  rw [(hGc hG).1]
  simp [exprDelta]

/-- Witness for C2 (amended): lowering the literal `5` from a fresh
context moves the cursor from 0 to 1. -/
theorem compile_expr_cursor_delta_witness :
    (⟨[], [(5 : Int)], 1, 1⟩ : FunctionCtx).free_reg = FunctionCtx.new.free_reg + exprDelta (Expr.Lit 5) ∧
    (⟨[], [(5 : Int)], 1, 1⟩ : FunctionCtx).vars = FunctionCtx.new.vars ∧
    ∀ n, Expr.Lit 5 = Expr.Var n →
      (⟨[], [(5 : Int)], 1, 1⟩ : FunctionCtx).free_reg = FunctionCtx.new.free_reg :=
  compile_expr_cursor_delta FunctionCtx.new (Expr.Lit 5) 0 [Instr.Const 0 0]
    ⟨[], [(5 : Int)], 1, 1⟩ (by decide) (by decide)

/-- C6: every `FunctionCtx` operation — `get_const`, `compile_expr`,
`compile_stmt`, `compile` — preserves the constant-pool invariant: the
pool is append-only (every existing entry keeps its value and its
index, i.e. the old pool is an initial segment of the new one), and
pairwise distinctness of the entries is preserved. -/
theorem pool_preservation (ctx : FunctionCtx) :
    (∀ v : Val, (∃ t, (get_const ctx v).2.consts = ctx.consts ++ t) ∧
       (ctx.consts.Nodup → (get_const ctx v).2.consts.Nodup)) ∧
    (∀ e r code ctx', compile_expr ctx e = some (r, code, ctx') →
       (∃ t, ctx'.consts = ctx.consts ++ t) ∧ (ctx.consts.Nodup → ctx'.consts.Nodup)) ∧
    (∀ s code ctx', compile_stmt ctx s = some (code, ctx') →
       (∃ t, ctx'.consts = ctx.consts ++ t) ∧ (ctx.consts.Nodup → ctx'.consts.Nodup)) ∧
    (∀ blk code ctx', compile ctx blk = some (code, ctx') →
       (∃ t, ctx'.consts = ctx.consts ++ t) ∧ (ctx.consts.Nodup → ctx'.consts.Nodup)) :=
  ⟨fun v => get_const_pool ctx v,
   fun e r code ctx' h => (compile_expr_master ctx e r code ctx' h).1,
   fun s code ctx' h => compile_stmt_master ctx s code ctx' h,
   fun blk code ctx' h => compile_block_master ctx blk code ctx' h⟩

/-- Witness for C6: compiling the literal `2` from a fresh context
grows the pool from `[]` to `[2]`, preserving the invariant. -/
theorem pool_preservation_witness :
    (∃ t, ([(2 : Int)] : List Val) = ([] : List Val) ++ t) ∧
    (([] : List Val).Nodup → ([(2 : Int)] : List Val).Nodup) :=
  (pool_preservation FunctionCtx.new).2.1 (Expr.Lit 2) 0 [Instr.Const 0 0]
    ⟨[], [(2 : Int)], 1, 1⟩ (by decide)

/-- C7: in a context whose declared variables occupy exactly the
registers below `vars.len()` (and whose cursor fits the `u8` range),
`pop_tmp(addr)` is a no-op — the whole context is returned unchanged —
when `addr` is a declared variable's home register; otherwise it
requires `addr = free_reg - 1`, in which case it decrements the cursor
by exactly one and changes nothing else, and any other call shape
(out-of-order release, double release) aborts compilation (`none`, the
fatal assertion) rather than being recoverable. -/
theorem pop_tmp_spec (ctx : FunctionCtx) (addr : Nat)
    (hlow : ∀ p ∈ ctx.vars, p.2 < ctx.vars.length)
    (hcomplete : ∀ a, a < ctx.vars.length → isHome ctx a)
    (hfree : ctx.free_reg ≤ 255) :
    (isHome ctx addr → pop_tmp ctx addr = some ctx) ∧
    (¬ isHome ctx addr → ctx.free_reg = addr + 1 →
        pop_tmp ctx addr = some { ctx with free_reg := addr }) ∧
    (¬ isHome ctx addr → ctx.free_reg ≠ addr + 1 → pop_tmp ctx addr = none) := by
  have hge : ¬ isHome ctx addr → ctx.vars.length ≤ addr := by
    intro hnh
    by_contra hlt
    exact hnh (hcomplete addr (by omega))
  refine ⟨?_, ?_, ?_⟩
  · intro hh
    obtain ⟨p, hp, hpa⟩ := hh
    exact pop_tmp_noop (hpa ▸ hlow p hp)
  · intro hnh heq
    exact pop_tmp_pop (hge hnh) (by omega) heq
  · intro hnh hne
    unfold pop_tmp
    rw [if_neg (show ¬ addr < ctx.vars.length by have := hge hnh; omega)]
    by_cases h2 : 255 ≤ addr
    · rw [if_pos h2]
    · rw [if_neg h2, if_neg hne]

/-- Witness for C7, in the context with one declared variable homed at
register 0 and cursor 3: releasing home register 0 is a no-op,
releasing the top temporary 2 decrements the cursor, and releasing
register 1 out of order aborts. -/
theorem pop_tmp_spec_witness :
    pop_tmp ⟨[(5, 0)], [], 3, 3⟩ 0 = some ⟨[(5, 0)], [], 3, 3⟩ ∧
    pop_tmp ⟨[(5, 0)], [], 3, 3⟩ 2 = some ⟨[(5, 0)], [], 2, 3⟩ ∧
    pop_tmp ⟨[(5, 0)], [], 3, 3⟩ 1 = none :=
  ⟨(pop_tmp_spec ⟨[(5, 0)], [], 3, 3⟩ 0 (by decide) (by decide) (by decide)).1 (by decide),
   (pop_tmp_spec ⟨[(5, 0)], [], 3, 3⟩ 2 (by decide) (by decide) (by decide)).2.1 (by decide) (by decide),
   (pop_tmp_spec ⟨[(5, 0)], [], 3, 3⟩ 1 (by decide) (by decide) (by decide)).2.2 (by decide) (by decide)⟩

theorem constScan_lt_length {l : List Val} {v : Val} {i : Nat}
    (h : constScan l v = some i) : i < l.length := by
  induction l generalizing i with
  | nil => simp [constScan] at h
  | cons k rest ih =>
      by_cases hk : k = v
      · rw [show constScan (k :: rest) v = some 0 from by simp [constScan, hk]] at h
        obtain rfl := Option.some.inj h
        simp
      · simp only [constScan, if_neg hk, Option.map_eq_some'] at h
        obtain ⟨i0, hscan, rfl⟩ := h
        have := ih hscan
        simp only [List.length_cons]
        omega

theorem constScan_append_some {l : List Val} {v : Val} {i : Nat} (l2 : List Val)
    (h : constScan l v = some i) : constScan (l ++ l2) v = some i := by
  induction l generalizing i with
  | nil => simp [constScan] at h
  | cons k rest ih =>
      by_cases hk : k = v
      · rw [show constScan (k :: rest) v = some 0 from by simp [constScan, hk]] at h
        obtain rfl := Option.some.inj h
        simp [constScan, hk]
      · simp only [constScan, if_neg hk, Option.map_eq_some'] at h
        obtain ⟨i0, hscan, rfl⟩ := h
        simp [constScan, hk, ih hscan]

theorem constScan_append_singleton {l : List Val} {v w : Val}
    (h : constScan l v = none) :
    constScan (l ++ [w]) v = if w = v then some l.length else none := by
  induction l with
  | nil =>
      show constScan [w] v = if w = v then some 0 else none
      by_cases hw : w = v
      · simp [constScan, hw]
      · simp [constScan, hw]
  | cons k rest ih =>
      by_cases hk : k = v
      · simp [constScan, hk] at h
      · have hrest : constScan rest v = none := by
          simpa [constScan, hk] using h
        by_cases hw : w = v
        · have hi := ih hrest
          rw [if_pos hw, hw] at hi
          simp [constScan, hk, hi, hw]
        · simp [constScan, hk, ih hrest, hw]

/-- C5 (amended): on a pool holding at most 254 entries (so that the
`as u8` cast of the returned indices cannot wrap), two successive
`get_const` calls on the same context return the same index exactly
when the requested values are equal; moreover each call returns the
index of an equal existing entry when one exists and otherwise appends
the value and returns the new last index. -/
theorem get_const_dedup (ctx : FunctionCtx) (v1 v2 : Val)
    (hlen : ctx.consts.length ≤ 254) :
    ((get_const ctx v1).1 = (get_const (get_const ctx v1).2 v2).1 ↔ v1 = v2) ∧
    (v1 ∈ ctx.consts → (get_const ctx v1).2 = ctx ∧
        ctx.consts[(get_const ctx v1).1]? = some v1) ∧
    (v1 ∉ ctx.consts → (get_const ctx v1).2.consts = ctx.consts ++ [v1] ∧
        (get_const ctx v1).1 = ctx.consts.length) := by
  cases s1 : constScan ctx.consts v1 with
  | some i1 =>
      have hi1 : i1 < ctx.consts.length := constScan_lt_length s1
      have hmod1 : i1 % 256 = i1 := Nat.mod_eq_of_lt (by omega)
      have hval1 : ctx.consts[i1]? = some v1 := (constScan_some s1).1
      refine ⟨?_, ?_, ?_⟩
      · cases s2 : constScan ctx.consts v2 with
        | some i2 =>
            have hi2 : i2 < ctx.consts.length := constScan_lt_length s2
            have hmod2 : i2 % 256 = i2 := Nat.mod_eq_of_lt (by omega)
            have hval2 : ctx.consts[i2]? = some v2 := (constScan_some s2).1
            simp only [get_const, s1, s2, hmod1, hmod2]
            constructor
            · intro hii
              subst hii
              rw [hval1] at hval2
              exact Option.some.inj hval2
            · intro hvv
              subst hvv
              rw [s1] at s2
              exact Option.some.inj s2
        | none =>
            have hv2 : v2 ∉ ctx.consts := constScan_none.mp s2
            have hv1 : v1 ∈ ctx.consts := by
              have := List.getElem?_mem hval1
              exact this
            simp only [get_const, s1, s2, hmod1]
            constructor
            · intro hii
              exfalso
              simp only [List.length_append, List.length_cons, List.length_nil] at hii
              omega
            · intro hvv
              subst hvv
              exact absurd hv1 hv2
      · intro _
        constructor
        · simp [get_const, s1]
        · simp only [get_const, s1, hmod1]
          exact hval1
      · intro hnm
        exact absurd (List.getElem?_mem hval1) hnm
  | none =>
      have hv1 : v1 ∉ ctx.consts := constScan_none.mp s1
      have hmodl : (ctx.consts.length + 1 - 1) % 256 = ctx.consts.length :=
        Nat.mod_eq_of_lt (by omega)
      refine ⟨?_, ?_, ?_⟩
      · cases s2' : constScan ctx.consts v2 with
        | some i2 =>
            have hi2 : i2 < ctx.consts.length := constScan_lt_length s2'
            have hmod2 : i2 % 256 = i2 := Nat.mod_eq_of_lt (by omega)
            have hs2 : constScan (ctx.consts ++ [v1]) v2 = some i2 :=
              constScan_append_some [v1] s2'
            have hv2 : v2 ∈ ctx.consts := by
              have := (constScan_some s2').1
              exact List.getElem?_mem this
            simp only [get_const, s1, hs2, List.length_append, List.length_cons,
              List.length_nil, hmodl, hmod2]
            constructor
            · intro hii
              omega
            · intro hvv
              subst hvv
              exact absurd hv2 hv1
        | none =>
            have hs2 : constScan (ctx.consts ++ [v1]) v2 =
                if v1 = v2 then some ctx.consts.length else none :=
              constScan_append_singleton s2'
            by_cases hvv : v1 = v2
            · rw [if_pos hvv] at hs2
              simp only [get_const, s1, hs2, List.length_append, List.length_cons,
                List.length_nil, hmodl]
              have : ctx.consts.length % 256 = ctx.consts.length :=
                Nat.mod_eq_of_lt (by omega)
              simp [this, hvv]
            · rw [if_neg hvv] at hs2
              simp only [get_const, s1, hs2, List.length_append, List.length_cons,
                List.length_nil, hmodl]
              have h256 : (ctx.consts.length + 1 + 1 - 1) % 256 = ctx.consts.length + 1 :=
                Nat.mod_eq_of_lt (by omega)
              constructor
              · intro hii
                omega
              · intro hvv2
                exact absurd hvv2 hvv
      · intro hm
        exact absurd hm hv1
      · intro _
        constructor
        · simp [get_const, s1]
        · simp only [get_const, s1, List.length_append, List.length_cons, List.length_nil]
          omega

/-- Witness for C5 (amended) on the two-entry pool `[2, 3]`: requesting
`2` and then `3` yields distinct indices, and the characterization of
the found case holds. -/
theorem get_const_dedup_witness :
    ((get_const ⟨[], [(2 : Int), (3 : Int)], 0, 0⟩ 2).1 =
        (get_const (get_const ⟨[], [(2 : Int), (3 : Int)], 0, 0⟩ 2).2 3).1 ↔ (2 : Val) = 3) ∧
    ((2 : Val) ∈ [(2 : Int), (3 : Int)] →
        (get_const ⟨[], [(2 : Int), (3 : Int)], 0, 0⟩ 2).2 = ⟨[], [(2 : Int), (3 : Int)], 0, 0⟩ ∧
        [(2 : Int), (3 : Int)][(get_const ⟨[], [(2 : Int), (3 : Int)], 0, 0⟩ 2).1]? = some 2) ∧
    ((2 : Val) ∉ [(2 : Int), (3 : Int)] →
        (get_const ⟨[], [(2 : Int), (3 : Int)], 0, 0⟩ 2).2.consts = [(2 : Int), (3 : Int)] ++ [2] ∧
        (get_const ⟨[], [(2 : Int), (3 : Int)], 0, 0⟩ 2).1 = [(2 : Int), (3 : Int)].length) :=
  get_const_dedup ⟨[], [(2 : Int), (3 : Int)], 0, 0⟩ 2 3 (by decide)

/-- C5 is false as stated over every constant-pool state: on a pool
already holding the 256 values `0..255`, requesting `0` returns index
0, and then requesting the fresh value `256` appends it at true index
256, whose `as u8` cast wraps to 0 — two unequal values receive the
same returned index. -/
theorem get_const_wrap_counterexample :
    ((0 : Val) ≠ 256) ∧
    (get_const ⟨[], (List.range 256).map (fun n => (n : Int)), 0, 0⟩ 0).1 =
      (get_const (get_const ⟨[], (List.range 256).map (fun n => (n : Int)), 0, 0⟩ 0).2 256).1 := by
  constructor
  · decide
  · rfl

/-- C3 is false on the code (code bug): in the reachable context with
one declared variable `x` homed at register 0 (cursor 1), lowering
`Mktup([Var x, Lit 7])` succeeds, but the element result registers are
`[0, 2]` — the bare variable contributes its home register 0 and
allocates nothing, so the literal lands in register 2, not adjacent to
it.  The emitted `MkTup` names the contiguous range `[start, start +
n - 1] = [0, 1]`, which is not the registers the elements occupy:
register 1 is the tuple's own result register and never receives the
second element's value. -/
theorem mktup_var_noncontiguous :
    compile FunctionCtx.new [Stmt.Declare 0, Stmt.RawExpr (Expr.Mktup [Expr.Var 0, Expr.Lit 7])] =
      some ([Instr.Const 2 0, Instr.MkTup 1 0 1], ⟨[(0, 0)], [(7 : Int)], 1, 3⟩) ∧
    compile_parts ⟨[(0, 0)], [], 2, 2⟩ [Expr.Var 0, Expr.Lit 7] =
      some ([0, 2], [Instr.Const 2 0], ⟨[(0, 0)], [(7 : Int)], 3, 3⟩) ∧
    compile_expr ⟨[(0, 0)], [], 1, 1⟩ (Expr.Mktup [Expr.Var 0, Expr.Lit 7]) =
      some (1, [Instr.Const 2 0, Instr.MkTup 1 0 1], ⟨[(0, 0)], [(7 : Int)], 2, 3⟩) ∧
    ([0, 2] : List Nat) ≠ [0, 1] := by
  refine ⟨by decide, by decide, by decide, by decide⟩

/-- C8: in a context satisfying the invariant that declared variables
occupy the lowest registers, the result register of a binary
operation — allocated before either operand is lowered — is disjoint
from both operand registers named in the emitted operator
instruction. -/
theorem binop_result_disjoint (ctx : FunctionCtx) (op : Binop) (l r : Expr)
    (res : Nat) (code : List Instr) (ctx' : FunctionCtx)
    (hG : GoodCtx ctx)
    (h : compile_expr ctx (Expr.Binop op l r) = some (res, code, ctx')) :
    ∃ ld rd c0, code = c0 ++ [binopInstr op res ld rd] ∧ res ≠ ld ∧ res ≠ rd := by
  cases hpush : push_tmp ctx with
  | none => simp [compile_expr, hpush] at h
  | some v =>
    obtain ⟨reg, ctx1⟩ := v
    cases hl : compile_expr ctx1 l with
    | none => simp [compile_expr, hpush, hl] at h
    | some vl =>
      obtain ⟨ld, lc, ctx2⟩ := vl
      cases hr : compile_expr ctx2 r with
      | none => simp [compile_expr, hpush, hl, hr] at h
      | some vr =>
        obtain ⟨rd, rc, ctx3⟩ := vr
        cases hpr : pop_tmp ctx3 rd with
        | none => simp [compile_expr, hpush, hl, hr, hpr] at h
        | some ctx4 =>
          cases hpl : pop_tmp ctx4 ld with
          | none => simp [compile_expr, hpush, hl, hr, hpr, hpl] at h
          | some ctx5 =>
            simp only [compile_expr, hpush, hl, hr, hpr, hpl, Option.some.injEq,
              Prod.mk.injEq] at h
            obtain ⟨rfl, rfl, rfl⟩ := h
            obtain ⟨hreg, hv1, hc1, hf1, hle1⟩ := push_tmp_some hpush
            obtain ⟨_, hVl, hGl⟩ := compile_expr_master ctx1 l ld lc ctx2 hl
            obtain ⟨_, hVr, hGr⟩ := compile_expr_master ctx2 r rd rc ctx3 hr
            have hG1 : GoodCtx ctx1 := GoodCtx.mono hG hv1 (by omega)
            obtain ⟨hfl, hdl⟩ := hGl hG1
            have hG2 : GoodCtx ctx2 := GoodCtx.mono hG1 hVl (by omega)
            obtain ⟨hfr, hdr⟩ := hGr hG2
            have hlen : ctx.vars.length ≤ ctx.free_reg := hG.2
            have e1 : ctx1.vars.length = ctx.vars.length := by rw [hv1]
            have e2 : ctx2.vars.length = ctx.vars.length := by rw [hVl, hv1]
            refine ⟨ld, rd, lc ++ rc, by simp [List.append_assoc], ?_, ?_⟩
            · rcases hdl with ⟨hδ, hlt⟩ | ⟨hδ, ha, _⟩ <;> omega
            · rcases hdr with ⟨hδ, hlt⟩ | ⟨hδ, ha, _⟩ <;> omega

/-- Witness for C8: `2 + 3` from a fresh context — the `Add` targets
register 0, reserved before the operands landed in registers 1 and 2. -/
theorem binop_result_disjoint_witness :
    ∃ ld rd c0,
      [Instr.Const 1 0, Instr.Const 2 1, Instr.Add 0 1 2] = c0 ++ [binopInstr Binop.Add 0 ld rd] ∧
      (0 : Nat) ≠ ld ∧ (0 : Nat) ≠ rd :=
  binop_result_disjoint FunctionCtx.new Binop.Add (Expr.Lit 2) (Expr.Lit 3) 0
    [Instr.Const 1 0, Instr.Const 2 1, Instr.Add 0 1 2]
    ⟨[], [(2 : Int), (3 : Int)], 1, 3⟩ (by decide) (by decide)

theorem lookupVar_append (vs ws : List (Nat × Nat)) (n : Nat) :
    lookupVar (vs ++ ws) n =
      match lookupVar vs n with
      | some a => some a
      | none => lookupVar ws n := by
  induction vs with
  | nil => simp [lookupVar]
  | cons p rest ih =>
      by_cases hp : p.1 = n
      · simp [lookupVar, hp]
      · simp [lookupVar, hp, ih]

theorem insertVar_not_mem {vs : List (Nat × Nat)} {n : Nat} (a : Nat)
    (h : lookupVar vs n = none) : insertVar vs n a = vs ++ [(n, a)] := by
  induction vs with
  | nil => simp [insertVar]
  | cons p rest ih =>
      by_cases hp : p.1 = n
      · simp [lookupVar, hp] at h
      · have hrest : lookupVar rest n = none := by simpa [lookupVar, hp] using h
        simp [insertVar, hp, ih hrest]

/-- Effect of a run of `Declare` statements: each fresh name is bound,
in order, to the next cursor register; no instruction is emitted, no
constant is added, existing bindings survive, and the cursor advances
by the number of declarations. -/
theorem declare_run (names : List Nat) : ∀ ctx : FunctionCtx, names.Nodup →
    (∀ n ∈ names, lookupVar ctx.vars n = none) →
    ctx.free_reg + names.length ≤ 255 →
    ∃ ctx', compile ctx (names.map Stmt.Declare) = some ([], ctx') ∧
      ctx'.free_reg = ctx.free_reg + names.length ∧
      ctx'.consts = ctx.consts ∧
      (∀ m am, lookupVar ctx.vars m = some am → lookupVar ctx'.vars m = some am) ∧
      (∀ i (hi : i < names.length),
        lookupVar ctx'.vars (names.get ⟨i, hi⟩) = some (ctx.free_reg + i)) := by
  induction names with
  | nil =>
      intro ctx _ _ _
      refine ⟨ctx, by simp [compile], by simp, rfl, fun m am h => h, ?_⟩
      intro i hi
      exact absurd hi (by simp)
  | cons n rest ih =>
      intro ctx hnd hfresh hlen
      have hnodup := List.nodup_cons.mp hnd
      cases hpush : push_tmp ctx with
      | none =>
          exfalso
          unfold push_tmp at hpush
          rw [if_pos (by simp at hlen ⊢; omega)] at hpush
          exact absurd hpush (by simp)
      | some v =>
          obtain ⟨reg, ctx1⟩ := v
          obtain ⟨hreg, hv1, hc1, hf1, _⟩ := push_tmp_some hpush
          have hstmt : compile_stmt ctx (Stmt.Declare n) =
              some ([], { ctx1 with vars := insertVar ctx1.vars n reg }) := by
            simp [compile_stmt, hpush]
          have hdv : ({ ctx1 with vars := insertVar ctx1.vars n reg } : FunctionCtx).vars =
              ctx.vars ++ [(n, ctx.free_reg)] := by
            show insertVar ctx1.vars n reg = _
            rw [hv1, hreg, insertVar_not_mem _ (hfresh n (by simp))]
          obtain ⟨ctx', hcomp, hf', hc', hkeep, hbind⟩ :=
            ih { ctx1 with vars := insertVar ctx1.vars n reg }
              hnodup.2
              (by
                intro m hm
                rw [hdv, lookupVar_append, hfresh m (by simp [hm])]
                have hmn : m ≠ n := fun he => hnodup.1 (he ▸ hm)
                simp [lookupVar, Ne.symm hmn])
              (by
                show ctx1.free_reg + rest.length ≤ 255
                simp at hlen
                omega)
          refine ⟨ctx', ?_, ?_, ?_, ?_, ?_⟩
          · show compile ctx (Stmt.Declare n :: rest.map Stmt.Declare) = some ([], ctx')
            simp [compile, hstmt, hcomp]
          · show ctx'.free_reg = ctx.free_reg + (rest.length + 1)
            rw [hf']
            show ctx1.free_reg + rest.length = _
            omega
          · rw [hc']
            show ctx1.consts = ctx.consts
            exact hc1
          · intro m am hm
            refine hkeep m am ?_
            rw [hdv, lookupVar_append, hm]
          · intro i hi
            cases i with
            | zero =>
                show lookupVar ctx'.vars n = some (ctx.free_reg + 0)
                have h0 : lookupVar ({ ctx1 with vars := insertVar ctx1.vars n reg } : FunctionCtx).vars n =
                    some ctx.free_reg := by
                  rw [hdv, lookupVar_append, hfresh n (by simp)]
                  simp [lookupVar]
                have := hkeep n ctx.free_reg h0
                simpa using this
            | succ i0 =>
                have hi0 : i0 < rest.length := by simpa using hi
                have := hbind i0 hi0
                show lookupVar ctx'.vars (rest.get ⟨i0, hi0⟩) = some (ctx.free_reg + (i0 + 1))
                rw [this]
                show some (ctx1.free_reg + i0) = _
                have : ctx1.free_reg + i0 = ctx.free_reg + (i0 + 1) := by omega
                rw [this]

/-- C9: from a fresh context, compiling `k` `Declare` statements with
pairwise-distinct names (and `k` within the `u8` register range) binds
the `i`-th declared name to register `i`, emits no instructions, and
leaves the cursor at `k`, so the first temporary allocated afterwards
is register `k`. -/
theorem declare_sequence (names : List Nat)
    (h1 : names.Nodup) (h2 : names.length ≤ 255) :
    ∃ ctx', compile FunctionCtx.new (names.map Stmt.Declare) = some ([], ctx') ∧
      ctx'.free_reg = names.length ∧
      ∀ i (hi : i < names.length), lookupVar ctx'.vars (names.get ⟨i, hi⟩) = some i := by
  obtain ⟨ctx', hcomp, hf, _, _, hbind⟩ :=
    declare_run names FunctionCtx.new h1 (fun n _ => rfl)
      (by show 0 + names.length ≤ 255; omega)
  refine ⟨ctx', hcomp, by simpa [FunctionCtx.new] using hf, ?_⟩
  intro i hi
  simpa [FunctionCtx.new] using hbind i hi

/-- Witness for C9: declaring names `7` then `8` binds them to
registers 0 and 1 and leaves the cursor at 2. -/
theorem declare_sequence_witness :
    ∃ ctx', compile FunctionCtx.new ([7, 8].map Stmt.Declare) = some ([], ctx') ∧
      ctx'.free_reg = [7, 8].length ∧
      ∀ i (hi : i < [7, 8].length), lookupVar ctx'.vars ([7, 8].get ⟨i, hi⟩) = some i :=
  declare_sequence [7, 8] (by decide) (by decide)

/-- C1 is false as stated: an `if` whose condition lowers to `C`
instructions and whose branches lower to `T` and `F` instructions
compiles to `C + T + F + 3` instructions, not `C + 1 + T + 1 + F`.
With `cond = Lit 0` (so `C = 1`) and two empty branches (`T = F = 0`)
the emitted sequence has 4 instructions — the skeleton holds the
conditional jump and two unconditional jumps, one entered when the
condition fails and one jumped over the false block —
while the claim predicts 3. -/
theorem if_count_counterexample :
    (compile_expr FunctionCtx.new (Expr.Lit 0)).map (fun p => p.2.1.length) = some 1 ∧
    (compile_stmt FunctionCtx.new (Stmt.If (Expr.Lit 0) [] [])).map (fun p => p.1.length) =
      some 4 ∧
    (4 : Nat) ≠ 1 + 1 + 0 + 1 + 0 := by
  refine ⟨by decide, by decide, by decide⟩

/-- C1 (amended): an `if` whose condition lowers to `ccode` (length
`C`, result register `cd`) and whose branches lower to `tcode` and
`fcode` (lengths `T` and `F`, both small enough for the `i16` offsets)
compiles to exactly `C + T + F + 3` instructions, stitched as
`[cond-eval][cond-jump][jump-to-false][true-block][jump-past-false]
[false-block]`.  The conditional jump's offsets 2 and 1 select the
first true-block instruction or the jump-to-false; the jump-to-false
offset `T + 2`, measured from its own index `C + 1`, lands on index
`C + 3 + T` — the first false-block instruction, i.e. the first
instruction after the region it skips — and the jump-past-false offset
`F + 1`, measured from its own index `C + 2 + T`, lands one past the
end of the whole construct. -/
theorem if_lowering_stitch (ctx ctx1 ctx2 ctx3 ctx4 : FunctionCtx) (cond : Expr)
    (tblk fblk : List Stmt) (cd : Nat) (ccode tcode fcode : List Instr)
    (hc : compile_expr ctx cond = some (cd, ccode, ctx1))
    (hp : pop_tmp ctx1 cd = some ctx2)
    (ht : compile ctx2 tblk = some (tcode, ctx3))
    (hf : compile ctx3 fblk = some (fcode, ctx4))
    (hT : tcode.length ≤ 32765) (hF : fcode.length ≤ 32766) :
    compile_stmt ctx (Stmt.If cond tblk fblk) =
      some (ifSkeleton ccode cd tcode fcode, ctx4) ∧
    (ifSkeleton ccode cd tcode fcode).length =
      ccode.length + tcode.length + fcode.length + 3 ∧
    (ifSkeleton ccode cd tcode fcode).drop (ccode.length + 3 + tcode.length) = fcode ∧
    ccode.length + 1 + (tcode.length + 2) = ccode.length + 3 + tcode.length ∧
    ccode.length + 2 + tcode.length + (fcode.length + 1) =
      (ifSkeleton ccode cd tcode fcode).length := by
  have hcast_t : i16cast tcode.length = (tcode.length : Int) := by
    unfold i16cast
    rw [Nat.mod_eq_of_lt (by omega), if_pos (by omega)]
  have hcast_f : i16cast fcode.length = (fcode.length : Int) := by
    unfold i16cast
    rw [Nat.mod_eq_of_lt (by omega), if_pos (by omega)]
  have htoff : i16add (i16cast tcode.length) 2 = some ((tcode.length : Int) + 2) := by
    rw [hcast_t]
    unfold i16add
    rw [if_pos (by constructor <;> omega)]
  have hfoff : i16add (i16cast fcode.length) 1 = some ((fcode.length : Int) + 1) := by
    rw [hcast_f]
    unfold i16add
    rw [if_pos (by constructor <;> omega)]
  refine ⟨?_, ?_, ?_, by omega, ?_⟩
  · simp only [compile_stmt, hc, hp, ht, hf, htoff, hfoff]
    rfl
  · simp only [ifSkeleton, List.length_append, List.length_cons, List.length_nil]
    omega
  · have hre : ifSkeleton ccode cd tcode fcode =
        (ccode ++ [Instr.CondJump cd 2 1, Instr.Jump ((tcode.length : Int) + 2)]
          ++ tcode ++ [Instr.Jump ((fcode.length : Int) + 1)]) ++ fcode := by
      simp [ifSkeleton, List.append_assoc]
    have hlen2 : (ccode ++ [Instr.CondJump cd 2 1, Instr.Jump ((tcode.length : Int) + 2)]
        ++ tcode ++ [Instr.Jump ((fcode.length : Int) + 1)]).length =
        ccode.length + 3 + tcode.length := by
      simp only [List.length_append, List.length_cons, List.length_nil]
      omega
    rw [hre, ← hlen2, List.drop_left]
  · simp only [ifSkeleton, List.length_append, List.length_cons, List.length_nil]
    omega

/-- Witness for C1 (amended): `if (0) {} else {}` from a fresh context
compiles to the four-instruction skeleton. -/
theorem if_lowering_stitch_witness :
    compile_stmt FunctionCtx.new (Stmt.If (Expr.Lit 0) [] []) =
      some (ifSkeleton [Instr.Const 0 0] 0 [] [], ⟨[], [(0 : Int)], 0, 1⟩) ∧
    (ifSkeleton [Instr.Const 0 0] 0 [] []).length = 1 + 0 + 0 + 3 ∧
    (ifSkeleton [Instr.Const 0 0] 0 [] []).drop (1 + 3 + 0) = [] ∧
    1 + 1 + (0 + 2) = 1 + 3 + 0 ∧
    1 + 2 + 0 + (0 + 1) = (ifSkeleton [Instr.Const 0 0] 0 [] []).length :=
  if_lowering_stitch FunctionCtx.new ⟨[], [(0 : Int)], 1, 1⟩ ⟨[], [(0 : Int)], 0, 1⟩
    ⟨[], [(0 : Int)], 0, 1⟩ ⟨[], [(0 : Int)], 0, 1⟩ (Expr.Lit 0) [] [] 0
    [Instr.Const 0 0] [] [] (by decide) (by decide) (by decide) (by decide)
    (by decide) (by decide)
